import Mathlib

/-!
Verification of `src/git_info_macro.py` (Marlin build-helper script).

The Python script is shallowly embedded below.  Python values that occur in
this program are modelled by `PyVal` (strings, integers, byte strings);
Python dictionaries are modelled as ordered association lists with the
CPython insertion/overwrite semantics (`dictInsert`), and arguments that may
or may not be a dictionary are modelled by `PyObj`.  Fallible functions
return `Except PyErr`.

Modelling notes, applied consistently:
* Python strings are Lean `String`s; `len`, slicing and per-character
  operations act on the character list (`String.data`), matching Python's
  code-point semantics for the ASCII data this program handles.
  `str.upper` is modelled for ASCII characters (non-ASCII case mapping is
  out of scope for this program's data).
* `repr` of a string (`pyReprStr`) follows CPython: quote selection
  (single quote unless the string contains a single quote and no double
  quote), backslash escapes for the backslash, the chosen quote, tab,
  newline, carriage return, and `\xHH` escapes for other control
  characters; characters ≥ 128 are kept verbatim (the printable-unicode
  refinement is irrelevant to this program's ASCII data).
* a `bytes` value stores its UTF-8 decoding (`b.decode('utf-8')`); decode
  failures are out of scope (never exercised by the claims).
-/

/-- Single-quote character (written via its code point). -/
def squo : Char := Char.ofNat 39

/-- Double-quote character (written via its code point). -/
def dquo : Char := Char.ofNat 34

/-- Backslash character. -/
def bsl : Char := Char.ofNat 92

/-- The one-character string consisting of a single quote. -/
def sqs : String := ⟨[squo]⟩

/-- The one-character string consisting of a double quote. -/
def dqs : String := ⟨[dquo]⟩

/-- Python values occurring in this program: `str`, `int`, `bytes`
(the `bytes` payload is its UTF-8 decoding). -/
inductive PyVal where
  | str (s : String)
  | int (n : Int)
  | bytes (decoded : String)
deriving DecidableEq, Repr

/-- Python `isinstance(v, str)`. -/
def PyVal.isStr : PyVal → Bool
  | .str _ => true
  | _ => false

/-- Python `type(v).__name__`. -/
def PyVal.typeName : PyVal → String
  | .str _ => "str"
  | .int _ => "int"
  | .bytes _ => "bytes"

/-- A Python dict, as its ordered list of key/value entries
(CPython preserves insertion order; keys are unique). -/
abbrev Entries := List (PyVal × PyVal)

/-- An argument that may be a dict or a plain value
(for the `isinstance(dct, dict)` checks). -/
inductive PyObj where
  | val (v : PyVal)
  | dict (d : Entries)
deriving DecidableEq, Repr

/-- Python exceptions raised by this program. -/
inductive PyErr where
  | typeError (msg : String)
  | valueError (msg : String)
  | attributeError (msg : String)
  | keyError (msg : String)
deriving DecidableEq, Repr

/-- Is the error a `TypeError`? -/
def PyErr.isTypeError : PyErr → Bool
  | .typeError _ => true
  | _ => false

instance exceptDecEq {ε α : Type} [DecidableEq ε] [DecidableEq α] :
    DecidableEq (Except ε α) := fun a b =>
  match a, b with
  | .error e1, .error e2 =>
    if h : e1 = e2 then .isTrue (by rw [h])
    else .isFalse fun hh => h (Except.error.inj hh)
  | .error _, .ok _ => .isFalse fun hh => Except.noConfusion hh
  | .ok _, .error _ => .isFalse fun hh => Except.noConfusion hh
  | .ok a1, .ok a2 =>
    if h : a1 = a2 then .isTrue (by rw [h])
    else .isFalse fun hh => h (Except.ok.inj hh)

/-- CPython dict assignment `d[k] = v`: overwrite in place if the key is
present (keeping its position), else append a new entry. -/
def dictInsert : Entries → PyVal → PyVal → Entries
  | [], k, v => [(k, v)]
  | (k0, v0) :: rest, k, v =>
    if k0 = k then (k, v) :: rest else (k0, v0) :: dictInsert rest k v

/-- Python dict subscript `d[k]` (as an `Option`). -/
def dictLookup : Entries → PyVal → Option PyVal
  | [], _ => none
  | (k, v) :: rest, key => if k = key then some v else dictLookup rest key

/-- Keys of a dict, in order. -/
def dictKeys (d : Entries) : List PyVal := d.map Prod.fst

/-- All keys are Python `str` values (the `all(isinstance(key, str) ...)`
checks). -/
def allStrKeys (d : Entries) : Bool := d.all fun kv => kv.1.isStr

/-- All values are Python `str` values. -/
def allStrVals (d : Entries) : Bool := d.all fun kv => kv.2.isStr

/-- Decimal digits of a natural number, most significant first
(fuel-based structural recursion so the kernel can evaluate it). -/
def natStrAux : Nat → Nat → List Char
  | 0, _ => []
  | fuel + 1, n =>
    if n < 10 then [Nat.digitChar n]
    else natStrAux fuel (n / 10) ++ [Nat.digitChar (n % 10)]

/-- Python `str` of a non-negative integer (decimal notation). -/
def natStr (n : Nat) : String := ⟨natStrAux (n + 1) n⟩

/-- Python `str` of an integer. -/
def intStr : Int → String
  | .ofNat n => natStr n
  | .negSucc m => "-" ++ natStr (m + 1)

/-- Python `str(v)`.  (`str` of a `bytes` value is never reached in this
program: `str_dict_values` decodes `bytes` before calling `str`.) -/
def pyStr : PyVal → String
  | .str s => s
  | .int n => intStr n
  | .bytes b => "b" ++ sqs ++ b ++ sqs

/-- CPython quote selection for `repr` of a string: a single quote, unless
the string contains a single quote and no double quote. -/
def pyReprQuote (s : List Char) : Char :=
  if s.contains squo && !s.contains dquo then dquo else squo

/-- CPython escaping of one character inside a `repr`-rendered string with
the chosen quote character. -/
def pyReprEscChar (q : Char) (c : Char) : List Char :=
  if c = bsl ∨ c = q then [bsl, c]
  else if c = Char.ofNat 9 then [bsl, Char.ofNat 116]
  else if c = Char.ofNat 10 then [bsl, Char.ofNat 110]
  else if c = Char.ofNat 13 then [bsl, Char.ofNat 114]
  else if c.toNat < 32 ∨ c.toNat = 127 then
    [bsl, Char.ofNat 120, Nat.digitChar (c.toNat / 16), Nat.digitChar (c.toNat % 16)]
  else [c]

/-- Python `repr` of a string (see the modelling notes in the header). -/
def pyReprStr (s : String) : String :=
  let q := pyReprQuote s.data
  ⟨q :: s.data.foldr (fun c acc => pyReprEscChar q c ++ acc) [q]⟩

/-- Python `repr(v)` (`bytes` case simplified; it is unreachable behind the
all-string type checks of the functions that call `repr`). -/
def pyRepr : PyVal → String
  | .str s => pyReprStr s
  | .int n => intStr n
  | .bytes b => "b" ++ pyReprStr b

/-- Python `str.upper` on one ASCII character. -/
def pyCharUpper (c : Char) : Char :=
  if 97 ≤ c.toNat ∧ c.toNat ≤ 122 then Char.ofNat (c.toNat - 32) else c

/-- Python `str.upper` (ASCII). -/
def pyUpper (s : String) : String := ⟨s.data.map pyCharUpper⟩

/-- Python `s.replace("'", "")`: drop every single quote. -/
def stripSq (s : String) : String := ⟨s.data.filter fun c => c ≠ squo⟩

/-- Python `sep.join(parts)`. -/
def joinWith (sep : String) : List String → String
  | [] => ""
  | [x] => x
  | x :: xs => x ++ sep ++ joinWith sep xs

/-- Character-list counterpart of joining with one space (used to reason
about the shell-splitting of the build-argument string). -/
def joinSpChars : List (List Char) → List Char
  | [] => []
  | [x] => x
  | x :: xs => x ++ Char.ofNat 32 :: joinSpChars xs

/-!  ## The embedded functions of `git_info_macro.py`  -/

/-- Message of the `AttributeError` raised by calling `.keys()` on a
non-dict value (the CPython message, with CPython's single quotes). -/
def noKeysAttrMsg (v : PyVal) : String :=
  sqs ++ v.typeName ++ sqs ++ " object has no attribute " ++ sqs ++ "keys" ++ sqs

/-- Embeds `gen_version_file_lines(dct)`: one `#define <key> "<value>"`
line per entry.  A non-dict argument has no `.keys()` attribute, so Python
raises `AttributeError` there (this function has no `isinstance(dct, dict)`
check); non-`str` keys, then non-`str` values, raise `TypeError`. -/
def gen_version_file_lines (o : PyObj) : Except PyErr (List String) :=
  match o with
  | .val v => .error (.attributeError (noKeysAttrMsg v))
  | .dict d =>
    if !allStrKeys d then .error (.typeError "not all keys of the dict are of type str")
    else if !allStrVals d then .error (.typeError "not all values of the dict are of type str")
    else .ok (d.map fun kv => "#define " ++ pyStr kv.1 ++ " " ++ dqs ++ pyStr kv.2 ++ dqs)

/-- Python `.upper()` applied to a dict key (only reached on `str` keys,
behind the all-string key check). -/
def pyValUpper : PyVal → PyVal
  | .str s => .str (pyUpper s)
  | v => v

/-- Embeds `upper_dict_keys(dct)`: new dict with upper-cased keys. -/
def upper_dict_keys (o : PyObj) : Except PyErr Entries :=
  match o with
  | .val _ => .error (.typeError "dct is not of type dict")
  | .dict d =>
    if !allStrKeys d then .error (.typeError "not all keys of the dict are of type str")
    else .ok (d.foldl (fun acc kv => dictInsert acc (pyValUpper kv.1) kv.2) [])

/-- The value transformation of `str_dict_values`: decode `bytes` as UTF-8,
then apply `str`.  (The `unicode` branch of the source is Python-2-only
dead code and has no Python-3 counterpart.) -/
def strValue : PyVal → String
  | .bytes b => b
  | v => pyStr v

/-- Embeds `str_dict_values(dct)`.  The source mutates `dct` in place
(`dct[k] = str(v)`) and returns `dct` itself, so this function gives both
the return value and the state of the caller's mapping after the call. -/
def str_dict_values (o : PyObj) : Except PyErr Entries :=
  match o with
  | .val _ => .error (.typeError "dct is not of type dict")
  | .dict d =>
    if !allStrKeys d then .error (.typeError "not all keys of the dict are of type str")
    else .ok (d.foldl (fun acc kv => dictInsert acc kv.1 (.str (strValue kv.2))) d)

/-- Embeds `repr_dict_values(dct)`: first `str_dict_values(dct)` (mutating
`dct`), then `dct[k] = v.__repr__().replace("'", "")` over the
already-stringified entries.  Like `str_dict_values`, it mutates `dct` in
place and returns it, so this is both the return value and the argument's
post-state. -/
def repr_dict_values (o : PyObj) : Except PyErr Entries :=
  match o with
  | .val _ => .error (.typeError "dct is not of type dict")
  | .dict d =>
    if !allStrKeys d then .error (.typeError "not all keys of the dict are of type str")
    else
      match str_dict_values (.dict d) with
      | .error e => .error e
      | .ok d1 => .ok (d1.foldl (fun acc kv => dictInsert acc kv.1 (.str (stripSq (pyRepr kv.2)))) d1)

/-- Embeds `prefix_dict_keys(pfx, dct)`: new dict with `pfx` prepended to every
key (`"{pfx}{k}".format(...)` applies `str` to the key, an identity on the
`str` keys the check guarantees). -/
def prefix_dict_keys (pfx : PyVal) (o : PyObj) : Except PyErr Entries :=
  if !pfx.isStr then .error (.typeError "prefix is not of type str")
  else match o with
  | .val _ => .error (.typeError "dct is not of type dict")
  | .dict d =>
    if !allStrKeys d then .error (.typeError "not all keys of the dict are of type str")
    else match pfx with
      | .str p => .ok (d.foldl (fun acc kv => dictInsert acc (.str (p ++ pyStr kv.1)) kv.2) [])
      | _ => .error (.typeError "prefix is not of type str")

/-- Embeds `gen_build_args_from_dict(dct)`: tokens `-D<KEY>=<repr(value)>` joined
by single spaces.  Like `gen_version_file_lines` it has no dict check, so a
non-dict argument fails with `AttributeError` at `dct.keys()`. -/
def gen_build_args_from_dict (o : PyObj) : Except PyErr String :=
  match o with
  | .val v => .error (.attributeError (noKeysAttrMsg v))
  | .dict d =>
    if !allStrKeys d then .error (.typeError "not all keys of the dict are of type str")
    else if !allStrVals d then .error (.typeError "not all values of the dict are of type str")
    else .ok (joinWith " " (d.map fun kv => "-D" ++ pyUpper (pyStr kv.1) ++ "=" ++ pyRepr kv.2))

/-- Embeds `string_to_part_list(string)`: prefixes of length 8 up to the full
length (`range(8, len(string)+1)`); `TypeError` on a non-string,
`ValueError` below 8 characters.  (The source is a generator; its checks
fire when `get_hash_arg_pairs` materialises it with `list(...)`.) -/
def string_to_part_list (o : PyVal) : Except PyErr (List String) :=
  match o with
  | .str s =>
    if s.data.length < 8 then .error (.valueError "string not long enought")
    else .ok ((List.range' 8 (s.data.length + 1 - 8)).map fun idx => ⟨s.data.take idx⟩)
  | _ => .error (.typeError "no str given")

/-- The key `"GIT_COMMIT_HASH_{length}_DIGITS"` for a partition length. -/
def hashKey (n : Nat) : String := "GIT_COMMIT_HASH_" ++ natStr n ++ "_DIGITS"

/-- Embeds `get_hash_arg_pairs(hash)`: dict from `hashKey (len part)` to each
prefix produced by `string_to_part_list`. -/
def get_hash_arg_pairs (h : PyVal) : Except PyErr Entries :=
  match string_to_part_list h with
  | .error e => .error e
  | .ok parts =>
    .ok (parts.foldl (fun acc part => dictInsert acc (.str (hashKey part.data.length)) (.str part)) [])

/-- The post-collection pipeline of `main` (lines 69–89 of the source):
escape values, prefix keys with `git_`, derive hash partitions from
`git_info['git_commit_hash']`, render the header text (with the
`#pragma once` first line) and the build-argument string. -/
def driver_pipeline (git_info : Entries) : Except PyErr (String × String) :=
  match repr_dict_values (.dict git_info) with
  | .error e => .error e
  | .ok gi0 =>
    match prefix_dict_keys (.str "git_") (.dict gi0) with
    | .error e => .error e
    | .ok gi =>
      match dictLookup gi (.str "git_commit_hash") with
      | none => .error (.keyError "git_commit_hash")
      | some commit_hash =>
        match get_hash_arg_pairs commit_hash with
        | .error e => .error e
        | .ok hi0 =>
          match repr_dict_values (.dict hi0) with
          | .error e => .error e
          | .ok hash_info =>
            match upper_dict_keys (.dict gi) with
            | .error e => .error e
            | .ok giUp =>
              match gen_version_file_lines (.dict giUp) with
              | .error e => .error e
              | .ok lines1 =>
                match gen_version_file_lines (.dict hash_info) with
                | .error e => .error e
                | .ok lines2 =>
                  match gen_build_args_from_dict (.dict gi) with
                  | .error e => .error e
                  | .ok args1 =>
                    match gen_build_args_from_dict (.dict hash_info) with
                    | .error e => .error e
                    | .ok args2 =>
                      .ok ("#pragma once\n" ++ joinWith "\n" (lines1 ++ lines2),
                           args1 ++ " " ++ args2)

/-!  ## A model of `shlex.split` (POSIX mode, as used on line 90 of the
source), and helpers for the output-shape claims.

`shlex.split` scans character by character: unquoted whitespace (space,
tab, newline, carriage return) separates words; a backslash escapes the
next character; single quotes protect everything up to the next single
quote; double quotes protect everything up to the next double quote, with
backslash escaping only a backslash or a double quote inside them.  An
unterminated quote or a trailing backslash raises `ValueError` (`none`
here).  `shlex.split` is called with `comments=False`, so no comment
handling applies.  -/

/-- Scanner states of the `shlex` model. -/
inductive ShState where
  | normal | esc | squote | dquote | dqesc
deriving DecidableEq, Repr

/-- Is the character unquoted-word-splitting whitespace for `shlex`? -/
def shWs (c : Char) : Prop :=
  c = Char.ofNat 32 ∨ c = Char.ofNat 9 ∨ c = Char.ofNat 10 ∨ c = Char.ofNat 13

instance (c : Char) : Decidable (shWs c) := by unfold shWs; infer_instance

/-- One-pass scanner for `shlex.split` (structural recursion on the
input). `tok` is the word collected so far, `inWord` whether a word is in
progress (a quoted empty string counts), `acc` the finished words. -/
def shlexAux : ShState → List Char → List Char → Bool → List (List Char) →
    Option (List (List Char))
  | .normal, [], tok, inWord, acc => some (if inWord then acc ++ [tok] else acc)
  | .normal, c :: rest, tok, inWord, acc =>
    if shWs c then
      if inWord then shlexAux .normal rest [] false (acc ++ [tok])
      else shlexAux .normal rest [] false acc
    else if c = bsl then shlexAux .esc rest tok true acc
    else if c = squo then shlexAux .squote rest tok true acc
    else if c = dquo then shlexAux .dquote rest tok true acc
    else shlexAux .normal rest (tok ++ [c]) true acc
  | .esc, [], _, _, _ => none
  | .esc, c :: rest, tok, _, acc => shlexAux .normal rest (tok ++ [c]) true acc
  | .squote, [], _, _, _ => none
  | .squote, c :: rest, tok, _, acc =>
    if c = squo then shlexAux .normal rest tok true acc
    else shlexAux .squote rest (tok ++ [c]) true acc
  | .dquote, [], _, _, _ => none
  | .dquote, c :: rest, tok, _, acc =>
    if c = dquo then shlexAux .normal rest tok true acc
    else if c = bsl then shlexAux .dqesc rest tok true acc
    else shlexAux .dquote rest (tok ++ [c]) true acc
  | .dqesc, [], _, _, _ => none
  | .dqesc, c :: rest, tok, _, acc =>
    if c = dquo ∨ c = bsl then shlexAux .dquote rest (tok ++ [c]) true acc
    else shlexAux .dquote rest (tok ++ [bsl, c]) true acc

/-- Model of `shlex.split` (`none` models the `ValueError` cases). -/
def shlexSplit (s : String) : Option (List String) :=
  (shlexAux .normal s.data [] false []).map (List.map fun cs => (⟨cs⟩ : String))

/-- A character that `shlex` treats as an ordinary word character:
not whitespace, not a quote, not a backslash. -/
def shPlain (c : Char) : Prop := ¬ shWs c ∧ c ≠ squo ∧ c ≠ dquo ∧ c ≠ bsl

instance (c : Char) : Decidable (shPlain c) := by unfold shPlain; infer_instance

/-- A key is shell-safe when all its characters are ordinary word
characters for `shlex`. -/
def shellSafeKey (s : String) : Prop := ∀ c ∈ s.data, shPlain c

instance (s : String) : Decidable (shellSafeKey s) := by
  unfold shellSafeKey; infer_instance

/-- The escaped body of `repr` of a string (everything between the two
quote characters), for the single-quote choice. -/
def escInner (w : String) : List Char :=
  w.data.foldr (fun c acc => pyReprEscChar squo c ++ acc) []

/-- The shell word that one dict entry contributes to the build-argument
string, after `shlex` removes the quotes: `-D`, the upper-cased key, `=`,
then the escaped body of the value's `repr`. -/
def shellTokenOf (kv : PyVal × PyVal) : String :=
  ⟨("-D" ++ pyUpper (pyStr kv.1) ++ "=").data ++ escInner (stripSq (pyRepr (.str (strValue kv.2))))⟩

/-- Composition checked by claim C2: escape the values with
`repr_dict_values`, then render with `gen_build_args_from_dict`
(exactly the Driver's use on lines 69 and 85 of the source). -/
def escape_then_args (m : Entries) : Except PyErr String :=
  match repr_dict_values (.dict m) with
  | .error e => .error e
  | .ok d => gen_build_args_from_dict (.dict d)

/-- Splits a character list at every occurrence of a separator character
(Python `str.split(sep)` semantics: `n` separators give `n+1` pieces). -/
def splitOnChar (sep : Char) : List Char → List (List Char)
  | [] => [[]]
  | c :: rest =>
    if c = sep then [] :: splitOnChar sep rest
    else match splitOnChar sep rest with
      | [] => [[c]]
      | t :: ts => (c :: t) :: ts

/-- The lines of a string (split at newline characters). -/
def splitLines (s : String) : List String :=
  (splitOnChar (Char.ofNat 10) s.data).map fun cs => ⟨cs⟩

/-- The space-separated pieces of a string. -/
def splitSpaces (s : String) : List String :=
  (splitOnChar (Char.ofNat 32) s.data).map fun cs => ⟨cs⟩

/-- The synthetic metadata record of the end-to-end claim C3: commit
identifier `1234567890abcdef`, branch `main`, author `A. Uthor`, fixed
formatted timestamps, and a short commit message (the fields `main`
collects on lines 49–57 of the source, with the values `format_time`
renders for epoch 1570277370). -/
def c3_record : Entries :=
  [(.str "commit_hash", .str "1234567890abcdef"),
   (.str "commit_hash_short", .str "12345678"),
   (.str "branch", .str "main"),
   (.str "author", .str "A. Uthor"),
   (.str "authored_date", .str "05.10.2019 12:09:30"),
   (.str "build_date", .str "05.10.2019 12:09:30"),
   (.str "commit_msg", .str "Initial commit")]

/-- Header text produced by the pipeline on the C3 record (empty string on
the error path, which claim C3's theorem separately rules out). -/
def c3_header : String :=
  match driver_pipeline c3_record with
  | .ok (h, _) => h
  | .error _ => ""

/-- Build-argument string produced by the pipeline on the C3 record. -/
def c3_args : String :=
  match driver_pipeline c3_record with
  | .ok (_, a) => a
  | .error _ => ""

/-- Value of a decimal digit string, most significant first (inverse used
to prove `natStr` injective). -/
def digitsVal (cs : List Char) : Nat :=
  cs.foldl (fun a c => 10 * a + (c.toNat - 48)) 0

/-- The dictionary that `get_hash_arg_pairs` builds for a string of length
at least 8: one entry per length `L` from 8 to the full length, keyed
`hashKey L`, valued the first `L` characters. -/
def hashEntries (s : String) : Entries :=
  (List.range' 8 (s.data.length - 7)).map fun L =>
    (.str (hashKey L), .str ⟨s.data.take L⟩)

/-!  ## Decimal rendering: correctness and injectivity  -/

theorem digitsVal_singleton (c : Char) : digitsVal [c] = c.toNat - 48 := by
  unfold digitsVal
  simp

theorem digitsVal_append (xs : List Char) (c : Char) :
    digitsVal (xs ++ [c]) = 10 * digitsVal xs + (c.toNat - 48) := by
  unfold digitsVal
  rw [List.foldl_append]
  simp

theorem digitChar_val (m : Nat) (h : m < 10) : (Nat.digitChar m).toNat - 48 = m := by
  interval_cases m <;> rfl

theorem digitsVal_natStrAux (fuel : Nat) :
    ∀ n, n < fuel → digitsVal (natStrAux fuel n) = n := by
  induction fuel with
  | zero => intro n h; omega
  | succ f ih =>
    intro n h
    rw [natStrAux]
    by_cases h10 : n < 10
    · rw [if_pos h10, digitsVal_singleton, digitChar_val n h10]
    · rw [if_neg h10, digitsVal_append]
      have hlt : n / 10 < n := Nat.div_lt_self (by omega) (by omega)
      rw [ih (n / 10) (by omega), digitChar_val (n % 10) (Nat.mod_lt _ (by omega))]
      omega

theorem natStr_inj {a b : Nat} (h : natStr a = natStr b) : a = b := by
  have hd : (natStr a).data = (natStr b).data := congrArg String.data h
  have ha : digitsVal (natStrAux (a + 1) a) = a := digitsVal_natStrAux (a + 1) a (by omega)
  have hb : digitsVal (natStrAux (b + 1) b) = b := digitsVal_natStrAux (b + 1) b (by omega)
  rw [natStr, natStr] at hd
  simp only at hd
  rw [hd] at ha
  omega

theorem hashKey_inj {a b : Nat} (h : hashKey a = hashKey b) : a = b := by
  have hd := congrArg String.data h
  rw [hashKey, hashKey, String.data_append, String.data_append,
    String.data_append, String.data_append] at hd
  have h1 := List.append_cancel_right hd
  have h2 := List.append_cancel_left h1
  exact natStr_inj (String.ext h2)

/-!  ## Dictionary-building lemmas  -/

theorem dictKeys_cons (k v : PyVal) (d : Entries) :
    dictKeys ((k, v) :: d) = k :: dictKeys d := rfl

theorem dictKeys_append (d e : Entries) :
    dictKeys (d ++ e) = dictKeys d ++ dictKeys e := by
  unfold dictKeys
  exact List.map_append ..

theorem dictInsert_not_mem {d : Entries} {k : PyVal} (v : PyVal)
    (h : k ∉ dictKeys d) : dictInsert d k v = d ++ [(k, v)] := by
  induction d with
  | nil => rfl
  | cons kv rest ih =>
    obtain ⟨k0, v0⟩ := kv
    rw [dictKeys_cons, List.mem_cons] at h
    push_neg at h
    rw [dictInsert, if_neg (Ne.symm h.1), ih h.2]
    simp

theorem dictInsert_head (k v v' : PyVal) (d : Entries) :
    dictInsert ((k, v) :: d) k v' = (k, v') :: d := by
  rw [dictInsert, if_pos rfl]

theorem dictInsert_append_left {pre : Entries} {k : PyVal} (d : Entries) (v : PyVal)
    (h : k ∉ dictKeys pre) : dictInsert (pre ++ d) k v = pre ++ dictInsert d k v := by
  induction pre with
  | nil => rfl
  | cons kv rest ih =>
    obtain ⟨k0, v0⟩ := kv
    rw [dictKeys_cons, List.mem_cons] at h
    push_neg at h
    rw [List.cons_append, dictInsert, if_neg (Ne.symm h.1), ih h.2]
    rfl

theorem foldl_dictInsert_fresh :
    ∀ (l : List (PyVal × PyVal)) (acc : Entries),
      (l.map Prod.fst).Nodup → (∀ k ∈ l.map Prod.fst, k ∉ dictKeys acc) →
      l.foldl (fun a kv => dictInsert a kv.1 kv.2) acc = acc ++ l := by
  intro l
  induction l with
  | nil => intro acc _ _; simp
  | cons kv rest ih =>
    intro acc hnd hdisj
    obtain ⟨k, v⟩ := kv
    simp only [List.foldl_cons]
    rw [dictInsert_not_mem v (hdisj k (by simp))]
    rw [List.map_cons, List.nodup_cons] at hnd
    rw [ih (acc ++ [(k, v)]) hnd.2 ?_]
    · simp
    · intro k' hk'
      rw [dictKeys_append, List.mem_append]
      push_neg
      refine ⟨hdisj k' (by simp [hk']), ?_⟩
      intro hk
      simp only [dictKeys, List.map_cons, List.map_nil, List.mem_singleton] at hk
      exact hnd.1 (hk ▸ hk')

theorem build_map_fresh {α : Type} (l : List α) (f : α → PyVal × PyVal)
    (h : (l.map fun x => (f x).1).Nodup) :
    l.foldl (fun acc x => dictInsert acc (f x).1 (f x).2) [] = l.map f := by
  have hnd : ((l.map f).map Prod.fst).Nodup := by
    rw [List.map_map]
    exact h
  have := foldl_dictInsert_fresh (l.map f) [] hnd (by simp [dictKeys])
  rw [List.foldl_map] at this
  simpa using this

theorem foldl_dictInsert_update :
    ∀ (l pre : Entries) (g : PyVal × PyVal → PyVal),
      ((pre ++ l).map Prod.fst).Nodup →
      l.foldl (fun acc kv => dictInsert acc kv.1 (g kv)) (pre ++ l) =
        pre ++ l.map fun kv => (kv.1, g kv) := by
  intro l
  induction l with
  | nil => intro pre g _; simp
  | cons kv rest ih =>
    intro pre g hnd
    obtain ⟨k, v⟩ := kv
    simp only [List.foldl_cons]
    have hk_pre : k ∉ dictKeys pre := by
      rw [List.map_append, List.nodup_append] at hnd
      intro hk
      exact hnd.2.2 hk (by simp)
    rw [dictInsert_append_left _ _ hk_pre, dictInsert_head]
    have hassoc : pre ++ (k, g (k, v)) :: rest = (pre ++ [(k, g (k, v))]) ++ rest := by
      simp
    rw [hassoc, ih (pre ++ [(k, g (k, v))]) g ?_]
    · simp
    · have : ((pre ++ [(k, g (k, v))]) ++ rest).map Prod.fst =
          (pre ++ (k, v) :: rest).map Prod.fst := by
        simp
      rw [this]
      exact hnd

/-!  ## Length lemmas for overwriting inserts  -/

theorem length_dictInsert_mem {d : Entries} {k : PyVal} (v : PyVal)
    (h : k ∈ dictKeys d) : (dictInsert d k v).length = d.length := by
  induction d with
  | nil => simp [dictKeys] at h
  | cons kv rest ih =>
    obtain ⟨k0, v0⟩ := kv
    rw [dictInsert]
    by_cases hk : k0 = k
    · rw [if_pos hk]
      rfl
    · rw [if_neg hk]
      rw [dictKeys_cons, List.mem_cons] at h
      rcases h with h | h
      · exact absurd h.symm hk
      · simp [ih h]

theorem length_dictInsert_not_mem {d : Entries} {k : PyVal} (v : PyVal)
    (h : k ∉ dictKeys d) : (dictInsert d k v).length = d.length + 1 := by
  rw [dictInsert_not_mem v h]
  simp

theorem mem_dictKeys_dictInsert {d : Entries} {k k' : PyVal} (v : PyVal)
    (h : k' ∈ dictKeys d) : k' ∈ dictKeys (dictInsert d k v) := by
  induction d with
  | nil => simp [dictKeys] at h
  | cons kv rest ih =>
    obtain ⟨k0, v0⟩ := kv
    rw [dictKeys_cons, List.mem_cons] at h
    rw [dictInsert]
    by_cases hk : k0 = k
    · rw [if_pos hk, dictKeys_cons]
      rcases h with h | h
      · exact List.mem_cons.mpr (Or.inl (h.trans hk))
      · exact List.mem_cons.mpr (Or.inr h)
    · rw [if_neg hk, dictKeys_cons]
      rcases h with h | h
      · exact List.mem_cons.mpr (Or.inl h)
      · exact List.mem_cons.mpr (Or.inr (ih h))

theorem mem_dictKeys_dictInsert_self (d : Entries) (k : PyVal) (v : PyVal) :
    k ∈ dictKeys (dictInsert d k v) := by
  induction d with
  | nil => simp [dictInsert, dictKeys]
  | cons kv rest ih =>
    obtain ⟨k0, v0⟩ := kv
    rw [dictInsert]
    by_cases hk : k0 = k
    · rw [if_pos hk, dictKeys_cons]
      exact List.mem_cons_self ..
    · rw [if_neg hk, dictKeys_cons]
      exact List.mem_cons.mpr (Or.inr ih)

theorem foldl_dictInsert_length_le :
    ∀ (l : List (PyVal × PyVal)) (acc : Entries),
      (l.foldl (fun a kv => dictInsert a kv.1 kv.2) acc).length ≤ acc.length + l.length := by
  intro l
  induction l with
  | nil => intro acc; simp
  | cons kv rest ih =>
    intro acc
    obtain ⟨k, v⟩ := kv
    simp only [List.foldl_cons]
    by_cases hmem : k ∈ dictKeys acc
    · calc (rest.foldl (fun a kv => dictInsert a kv.1 kv.2) (dictInsert acc k v)).length
          ≤ (dictInsert acc k v).length + rest.length := ih _
        _ = acc.length + rest.length := by rw [length_dictInsert_mem v hmem]
        _ ≤ acc.length + (rest.length + 1) := by omega
    · calc (rest.foldl (fun a kv => dictInsert a kv.1 kv.2) (dictInsert acc k v)).length
          ≤ (dictInsert acc k v).length + rest.length := ih _
        _ = acc.length + (rest.length + 1) := by rw [length_dictInsert_not_mem v hmem]; omega

theorem foldl_dictInsert_length_lt :
    ∀ (l : List (PyVal × PyVal)) (acc : Entries),
      (¬ (l.map Prod.fst).Nodup ∨ ∃ k ∈ l.map Prod.fst, k ∈ dictKeys acc) →
      (l.foldl (fun a kv => dictInsert a kv.1 kv.2) acc).length < acc.length + l.length := by
  intro l
  induction l with
  | nil =>
    intro acc h
    rcases h with h | ⟨k, hk, _⟩
    · exact absurd List.nodup_nil h
    · simp at hk
  | cons kv rest ih =>
    intro acc h
    obtain ⟨k, v⟩ := kv
    simp only [List.foldl_cons]
    by_cases hmem : k ∈ dictKeys acc
    · have hle := foldl_dictInsert_length_le rest (dictInsert acc k v)
      have := length_dictInsert_mem v hmem
      simp only [List.length_cons]
      omega
    · have hstep : ¬ (rest.map Prod.fst).Nodup ∨
          ∃ k' ∈ rest.map Prod.fst, k' ∈ dictKeys (dictInsert acc k v) := by
        rcases h with h | ⟨k', hk', hk'acc⟩
        · rw [List.map_cons, List.nodup_cons] at h
          push_neg at h
          by_cases hknd : (rest.map Prod.fst).Nodup
          · refine Or.inr ⟨k, ?_, mem_dictKeys_dictInsert_self ..⟩
            by_contra hk
            exact h hk hknd
          · exact Or.inl hknd
        · rw [List.map_cons, List.mem_cons] at hk'
          rcases hk' with rfl | hk'
          · exact absurd hk'acc hmem
          · exact Or.inr ⟨k', hk', mem_dictKeys_dictInsert v hk'acc⟩
      have := ih (dictInsert acc k v) hstep
      have := length_dictInsert_not_mem v hmem
      simp only [List.length_cons]
      omega

/-!  ## String helper lemmas  -/

theorem str_append_left_cancel {a b c : String} (h : a ++ b = a ++ c) : b = c := by
  have hd : a.data ++ b.data = a.data ++ c.data := by
    rw [← String.data_append, ← String.data_append, h]
  exact String.ext (List.append_cancel_left hd)

theorem mem_of_allStrKeys {d : Entries} (h : allStrKeys d = true) :
    ∀ kv ∈ d, ∃ s, kv.1 = PyVal.str s := by
  intro kv hkv
  have := List.all_eq_true.mp h kv hkv
  match kv, this with
  | (.str s, _), _ => exact ⟨s, rfl⟩

/-!  ## Per-function specification lemmas  -/

theorem gen_version_file_lines_ok (d : Entries)
    (h1 : allStrKeys d = true) (h2 : allStrVals d = true) :
    gen_version_file_lines (.dict d) =
      .ok (d.map fun kv => "#define " ++ pyStr kv.1 ++ " " ++ dqs ++ pyStr kv.2 ++ dqs) := by
  simp [gen_version_file_lines, h1, h2]

theorem gen_build_args_from_dict_ok (d : Entries)
    (h1 : allStrKeys d = true) (h2 : allStrVals d = true) :
    gen_build_args_from_dict (.dict d) =
      .ok (joinWith " " (d.map fun kv => "-D" ++ pyUpper (pyStr kv.1) ++ "=" ++ pyRepr kv.2)) := by
  simp [gen_build_args_from_dict, h1, h2]

theorem mem_dictKeys_str {d : Entries} (h : allStrKeys d = true) :
    ∀ k ∈ dictKeys d, ∃ s, k = PyVal.str s := by
  intro k hk
  obtain ⟨kv, hkv, rfl⟩ := List.mem_map.mp hk
  exact mem_of_allStrKeys h kv hkv

theorem prefix_dict_keys_ok (p : String) (d : Entries)
    (h1 : allStrKeys d = true) (h2 : (dictKeys d).Nodup) :
    prefix_dict_keys (.str p) (.dict d) =
      .ok (d.map fun kv => (.str (p ++ pyStr kv.1), kv.2)) := by
  have hnd : (d.map fun kv => PyVal.str (p ++ pyStr kv.1)).Nodup := by
    have hmap : (d.map fun kv => PyVal.str (p ++ pyStr kv.1)) =
        (d.map Prod.fst).map fun k => PyVal.str (p ++ pyStr k) := by
      rw [List.map_map]
      rfl
    rw [hmap]
    refine List.Nodup.map_on ?_ h2
    intro k1 hk1 k2 hk2 heq
    obtain ⟨s1, rfl⟩ := mem_dictKeys_str h1 k1 hk1
    obtain ⟨s2, rfl⟩ := mem_dictKeys_str h1 k2 hk2
    rw [PyVal.str.injEq] at heq ⊢
    have := str_append_left_cancel heq
    simpa [pyStr] using this
  have hfold := build_map_fresh d (fun kv => (PyVal.str (p ++ pyStr kv.1), kv.2)) hnd
  simp only [prefix_dict_keys, PyVal.isStr, Bool.not_true, Bool.false_eq_true, if_false, h1]
  simpa using hfold

theorem str_dict_values_ok (d : Entries)
    (h1 : allStrKeys d = true) (h2 : (dictKeys d).Nodup) :
    str_dict_values (.dict d) = .ok (d.map fun kv => (kv.1, .str (strValue kv.2))) := by
  have hfold := foldl_dictInsert_update d [] (fun kv => PyVal.str (strValue kv.2)) (by simpa using h2)
  simp only [List.nil_append] at hfold
  simp only [str_dict_values, h1, Bool.not_true, Bool.false_eq_true, if_false]
  exact congrArg Except.ok hfold

theorem repr_dict_values_ok (d : Entries)
    (h1 : allStrKeys d = true) (h2 : (dictKeys d).Nodup) :
    repr_dict_values (.dict d) =
      .ok (d.map fun kv => (kv.1, .str (stripSq (pyReprStr (strValue kv.2))))) := by
  have hstr := str_dict_values_ok d h1 h2
  simp only [repr_dict_values, h1, Bool.not_true, Bool.false_eq_true, if_false, hstr]
  set d1 : Entries := d.map fun kv => (kv.1, PyVal.str (strValue kv.2)) with hd1
  have hkeys : (d1.map Prod.fst).Nodup := by
    rw [hd1, List.map_map]
    simpa [Function.comp] using h2
  have hfold := foldl_dictInsert_update d1 []
    (fun kv => PyVal.str (stripSq (pyRepr kv.2))) (by simpa using hkeys)
  simp only [List.nil_append] at hfold
  rw [hfold, hd1, List.map_map]
  rfl

theorem dictLookup_map {α : Type} (l : List α) (key : α → PyVal) (val : α → PyVal)
    (hinj : ∀ a b, key a = key b → a = b) :
    ∀ L ∈ l, dictLookup (l.map fun x => (key x, val x)) (key L) = some (val L) := by
  induction l with
  | nil => intro L hL; simp at hL
  | cons x rest ih =>
    intro L hL
    rw [List.map_cons, dictLookup]
    by_cases hx : key x = key L
    · rw [if_pos hx, hinj x L hx]
    · rw [if_neg hx]
      rcases List.mem_cons.mp hL with rfl | hL'
      · exact absurd rfl hx
      · exact ih L hL'

theorem get_hash_arg_pairs_short (s : String) (h : s.data.length < 8) :
    get_hash_arg_pairs (.str s) = .error (.valueError "string not long enought") := by
  simp only [get_hash_arg_pairs, string_to_part_list]
  rw [if_pos h]

theorem get_hash_arg_pairs_ok (s : String) (h : 8 ≤ s.data.length) :
    get_hash_arg_pairs (.str s) = .ok (hashEntries s) := by
  have hlt : ¬ s.data.length < 8 := by omega
  have hcnt : s.data.length + 1 - 8 = s.data.length - 7 := by omega
  simp only [get_hash_arg_pairs, string_to_part_list, hlt, if_false, hcnt]
  rw [List.foldl_map]
  have htake : ∀ L ∈ List.range' 8 (s.data.length - 7),
      (s.data.take L).length = L := by
    intro L hL
    have := List.mem_range'_1.mp hL
    rw [List.length_take]
    omega
  have hnd : ((List.range' 8 (s.data.length - 7)).map fun L =>
      ((fun idx => (PyVal.str (hashKey ((⟨s.data.take idx⟩ : String)).data.length),
        PyVal.str (⟨s.data.take idx⟩ : String))) L).1).Nodup := by
    have hrw : ((List.range' 8 (s.data.length - 7)).map fun L =>
        ((fun idx => (PyVal.str (hashKey ((⟨s.data.take idx⟩ : String)).data.length),
          PyVal.str (⟨s.data.take idx⟩ : String))) L).1) =
        (List.range' 8 (s.data.length - 7)).map fun L => PyVal.str (hashKey L) := by
      refine List.map_eq_map_iff.mpr ?_
      intro L hL
      simp only
      rw [show ((⟨s.data.take L⟩ : String)).data.length = L from htake L hL]
    rw [hrw]
    refine List.Nodup.map_on ?_ (List.nodup_range' ..)
    intro a _ b _ hab
    rw [PyVal.str.injEq] at hab
    exact hashKey_inj hab
  have hfold := build_map_fresh (List.range' 8 (s.data.length - 7))
    (fun idx => (PyVal.str (hashKey ((⟨s.data.take idx⟩ : String)).data.length),
      PyVal.str (⟨s.data.take idx⟩ : String))) hnd
  rw [hfold]
  simp only [hashEntries]
  congr 1
  refine List.map_eq_map_iff.mpr ?_
  intro L hL
  rw [show ((⟨s.data.take L⟩ : String)).data.length = L from htake L hL]

/-!  ## Claim theorems  -/

/-- C1: for every string `s` of at least 8 characters, `get_hash_arg_pairs`
returns the mapping with exactly `len s - 7` entries whose entry for each
length `L` from 8 to `len s` has key `GIT_COMMIT_HASH_<L>_DIGITS` and value
the first `L` characters of `s`; every key's encoded length equals its
value's actual length, and the shortest partition has exactly 8
characters. -/
theorem claim_C1 (s : String) (h : 8 ≤ s.data.length) :
    get_hash_arg_pairs (.str s) = .ok (hashEntries s) ∧
    (hashEntries s).length = s.data.length - 7 ∧
    ∀ L, 8 ≤ L → L ≤ s.data.length →
      dictLookup (hashEntries s) (.str (hashKey L)) = some (.str ⟨s.data.take L⟩) ∧
      (s.data.take L).length = L := by
  refine ⟨get_hash_arg_pairs_ok s h, ?_, ?_⟩
  · rw [hashEntries, List.length_map, List.length_range']
  · intro L h8 hle
    constructor
    · have hmem : L ∈ List.range' 8 (s.data.length - 7) :=
        List.mem_range'_1.mpr ⟨h8, by omega⟩
      exact dictLookup_map _ _ _
        (fun a b hab => hashKey_inj (by simpa [PyVal.str.injEq] using hab)) L hmem
    · rw [List.length_take]
      omega

theorem claim_C1_witness :
    get_hash_arg_pairs (.str "abcdefghij") = .ok (hashEntries "abcdefghij") ∧
    (hashEntries "abcdefghij").length = "abcdefghij".data.length - 7 ∧
    ∀ L, 8 ≤ L → L ≤ "abcdefghij".data.length →
      dictLookup (hashEntries "abcdefghij") (.str (hashKey L)) =
        some (.str ⟨"abcdefghij".data.take L⟩) ∧
      ("abcdefghij".data.take L).length = L :=
  claim_C1 "abcdefghij" (by decide)

/-- C4: for every mapping with textual keys and values,
`gen_version_file_lines` returns exactly one line per entry, in iteration
order, of the form `#define <key> "<value>"` with the key verbatim and the
value in double quotes (hence one line per entry, and the empty mapping
gives the empty list). -/
theorem claim_C4 (d : Entries) (h1 : allStrKeys d = true) (h2 : allStrVals d = true) :
    gen_version_file_lines (.dict d) =
      .ok (d.map fun kv => "#define " ++ pyStr kv.1 ++ " " ++ dqs ++ pyStr kv.2 ++ dqs) ∧
    (d.map fun kv => "#define " ++ pyStr kv.1 ++ " " ++ dqs ++ pyStr kv.2 ++ dqs).length
      = d.length :=
  ⟨gen_version_file_lines_ok d h1 h2, List.length_map ..⟩

theorem claim_C4_witness :
    gen_version_file_lines (.dict [(.str "a", .str "abc"), (.str "b", .str "def")]) =
      .ok ["#define a " ++ dqs ++ "abc" ++ dqs, "#define b " ++ dqs ++ "def" ++ dqs] ∧
    gen_version_file_lines (.dict []) = .ok ([] : List String) := by
  constructor
  · exact (claim_C4 [(.str "a", .str "abc"), (.str "b", .str "def")] rfl rfl).1.trans (by decide)
  · exact (claim_C4 [] rfl rfl).1.trans (by decide)

/-- C5: for every mapping with textual keys and values,
`gen_build_args_from_dict` emits one token `-D<KEY>=<repr(value)>` per
entry (key upper-cased), joined by single spaces in iteration order; a
non-textual key, or a non-textual value, fails with the corresponding
`TypeError`.  (The concrete example of the claim is the witness.) -/
theorem claim_C5 :
    (∀ d : Entries, allStrKeys d = true → allStrVals d = true →
      gen_build_args_from_dict (.dict d) =
        .ok (joinWith " " (d.map fun kv => "-D" ++ pyUpper (pyStr kv.1) ++ "=" ++ pyRepr kv.2))) ∧
    (∀ d : Entries, allStrKeys d = false →
      gen_build_args_from_dict (.dict d) =
        .error (.typeError "not all keys of the dict are of type str")) ∧
    (∀ d : Entries, allStrKeys d = true → allStrVals d = false →
      gen_build_args_from_dict (.dict d) =
        .error (.typeError "not all values of the dict are of type str")) := by
  refine ⟨gen_build_args_from_dict_ok, ?_, ?_⟩
  · intro d h
    simp [gen_build_args_from_dict, h]
  · intro d h1 h2
    simp [gen_build_args_from_dict, h1, h2]

theorem claim_C5_witness :
    gen_build_args_from_dict (.dict [(.str "abc", .str "def"), (.str "ghi", .str "jkl")]) =
      .ok ("-DABC=" ++ sqs ++ "def" ++ sqs ++ " -DGHI=" ++ sqs ++ "jkl" ++ sqs) ∧
    gen_build_args_from_dict (.dict [(.int 123, .str "x")]) =
      .error (.typeError "not all keys of the dict are of type str") ∧
    gen_build_args_from_dict (.dict [(.str "a", .int 1)]) =
      .error (.typeError "not all values of the dict are of type str") :=
  ⟨(claim_C5.1 [(.str "abc", .str "def"), (.str "ghi", .str "jkl")] rfl rfl).trans (by decide),
   claim_C5.2.1 [(.int 123, .str "x")] rfl,
   claim_C5.2.2 [(.str "a", .int 1)] rfl rfl⟩

/-- C6: `get_hash_arg_pairs` fails with `ValueError` on strings shorter
than 8 characters (and never produces a partition shorter than 8
characters), and fails with `TypeError` on non-textual input. -/
theorem claim_C6 :
    (∀ v : PyVal, v.isStr = false →
      get_hash_arg_pairs v = .error (.typeError "no str given")) ∧
    (∀ s : String, s.data.length < 8 →
      get_hash_arg_pairs (.str s) = .error (.valueError "string not long enought")) ∧
    (∀ (s : String) (e : Entries), get_hash_arg_pairs (.str s) = .ok e →
      ∀ kv ∈ e, ∃ t : String, kv.2 = .str t ∧ 8 ≤ t.data.length) := by
  refine ⟨?_, ?_, ?_⟩
  · intro v hv
    cases v with
    | str s => simp [PyVal.isStr] at hv
    | int n => rfl
    | bytes b => rfl
  · exact get_hash_arg_pairs_short
  · intro s e hok kv hkv
    by_cases h8 : 8 ≤ s.data.length
    · rw [get_hash_arg_pairs_ok s h8] at hok
      have he : e = hashEntries s := by
        injection hok with h'
        exact h'.symm
      rw [he, hashEntries] at hkv
      obtain ⟨L, hL, rfl⟩ := List.mem_map.mp hkv
      have hb := List.mem_range'_1.mp hL
      refine ⟨⟨s.data.take L⟩, rfl, ?_⟩
      have : (s.data.take L).length = L := by
        rw [List.length_take]
        omega
      simpa [this] using hb.1
    · rw [get_hash_arg_pairs_short s (by omega)] at hok
      exact absurd hok (by simp)

theorem claim_C6_witness :
    get_hash_arg_pairs (.int 5) = .error (.typeError "no str given") ∧
    get_hash_arg_pairs (.str "2short") = .error (.valueError "string not long enought") ∧
    ∀ kv ∈ hashEntries "abcdefgh", ∃ t : String, kv.2 = .str t ∧ 8 ≤ t.data.length :=
  ⟨claim_C6.1 (.int 5) rfl,
   claim_C6.2.1 "2short" (by decide),
   claim_C6.2.2 "abcdefgh" (hashEntries "abcdefgh") (by decide)⟩

/-- C7, as stated, is false: `str_dict_values` (and `repr_dict_values`)
mutate the input mapping in place and return it (`dct[k] = str(v)` on line
203 of the source, `return dct` on line 205; the fresh `new_dict` on line
196 is never used).  Applied to the textual-keyed mapping
`{"a": 123}`, the caller's mapping afterwards holds `"123"`, not `123`:
the input is not left unchanged. -/
theorem claim_C7_counterexample :
    str_dict_values (.dict [(.str "a", .int 123)]) = .ok [(.str "a", .str "123")] ∧
    str_dict_values (.dict [(.str "a", .int 123)]) ≠ .ok [(.str "a", .int 123)] := by
  decide

/-- C7 (amended): applied to a mapping with textual keys, the value
normalizers return a mapping with identical keys whose values are the
stringified (resp. repr-escaped) originals — but that mapping is the input
mutated in place (the source returns `dct` itself), so the metadata record
is modified, not preserved, by these steps. -/
theorem claim_C7 (d : Entries) (h1 : allStrKeys d = true) (h2 : (dictKeys d).Nodup) :
    str_dict_values (.dict d) = .ok (d.map fun kv => (kv.1, .str (strValue kv.2))) ∧
    repr_dict_values (.dict d) =
      .ok (d.map fun kv => (kv.1, .str (stripSq (pyReprStr (strValue kv.2))))) ∧
    dictKeys (d.map fun kv => (kv.1, PyVal.str (strValue kv.2))) = dictKeys d ∧
    dictKeys (d.map fun kv => (kv.1, PyVal.str (stripSq (pyReprStr (strValue kv.2))))) =
      dictKeys d := by
  refine ⟨str_dict_values_ok d h1 h2, repr_dict_values_ok d h1 h2, ?_, ?_⟩
  · rw [dictKeys, dictKeys, List.map_map]
    rfl
  · rw [dictKeys, dictKeys, List.map_map]
    rfl

theorem claim_C7_witness :
    str_dict_values (.dict [(.str "a", .int 123)]) =
      .ok ([(.str "a", .int 123)].map fun kv => (kv.1, .str (strValue kv.2))) ∧
    repr_dict_values (.dict [(.str "a", .int 123)]) =
      .ok ([(.str "a", .int 123)].map fun kv =>
        (kv.1, .str (stripSq (pyReprStr (strValue kv.2))))) ∧
    dictKeys ([(.str "a", .int 123)].map fun kv => (kv.1, PyVal.str (strValue kv.2))) =
      dictKeys [(.str "a", .int 123)] ∧
    dictKeys ([(.str "a", .int 123)].map fun kv =>
        (kv.1, PyVal.str (stripSq (pyReprStr (strValue kv.2))))) =
      dictKeys [(.str "a", .int 123)] :=
  claim_C7 [(.str "a", .int 123)] rfl (by decide)

/-- C8, as stated, is false: neither renderer has an `isinstance(dct,
dict)` check, so a non-mapping input fails at `dct.keys()` with
`AttributeError` — not with a type-validation error.  Concretely, at the
integer input `123` both renderers produce an `AttributeError`, which is
not a `TypeError`. -/
theorem claim_C8_counterexample :
    gen_version_file_lines (.val (.int 123)) =
      .error (.attributeError (noKeysAttrMsg (.int 123))) ∧
    gen_build_args_from_dict (.val (.int 123)) =
      .error (.attributeError (noKeysAttrMsg (.int 123))) ∧
    PyErr.isTypeError (.attributeError (noKeysAttrMsg (.int 123))) = false := by
  decide

/-- C8 (amended): `gen_version_file_lines` and `gen_build_args_from_dict`
raise a `TypeError` at entry for a mapping with non-textual keys or
values; a non-mapping input instead fails with an `AttributeError` (no
`.keys()` attribute), because these two functions, unlike the other dict
helpers, have no explicit mapping check. -/
theorem claim_C8 :
    (∀ v : PyVal,
      gen_version_file_lines (.val v) = .error (.attributeError (noKeysAttrMsg v)) ∧
      gen_build_args_from_dict (.val v) = .error (.attributeError (noKeysAttrMsg v)) ∧
      PyErr.isTypeError (.attributeError (noKeysAttrMsg v)) = false) ∧
    (∀ d : Entries, allStrKeys d = false →
      gen_version_file_lines (.dict d) =
        .error (.typeError "not all keys of the dict are of type str") ∧
      gen_build_args_from_dict (.dict d) =
        .error (.typeError "not all keys of the dict are of type str")) ∧
    (∀ d : Entries, allStrKeys d = true → allStrVals d = false →
      gen_version_file_lines (.dict d) =
        .error (.typeError "not all values of the dict are of type str") ∧
      gen_build_args_from_dict (.dict d) =
        .error (.typeError "not all values of the dict are of type str")) := by
  refine ⟨?_, ?_, ?_⟩
  · intro v
    exact ⟨rfl, rfl, rfl⟩
  · intro d h
    constructor
    · simp [gen_version_file_lines, h]
    · simp [gen_build_args_from_dict, h]
  · intro d h1 h2
    constructor
    · simp [gen_version_file_lines, h1, h2]
    · simp [gen_build_args_from_dict, h1, h2]

theorem claim_C8_witness :
    (gen_version_file_lines (.val (.str "abc")) =
      .error (.attributeError (noKeysAttrMsg (.str "abc"))) ∧
     gen_build_args_from_dict (.val (.str "abc")) =
      .error (.attributeError (noKeysAttrMsg (.str "abc"))) ∧
     PyErr.isTypeError (.attributeError (noKeysAttrMsg (.str "abc"))) = false) ∧
    (gen_version_file_lines (.dict [(.int 7, .str "x")]) =
      .error (.typeError "not all keys of the dict are of type str") ∧
     gen_build_args_from_dict (.dict [(.int 7, .str "x")]) =
      .error (.typeError "not all keys of the dict are of type str")) ∧
    (gen_version_file_lines (.dict [(.str "k", .int 7)]) =
      .error (.typeError "not all values of the dict are of type str") ∧
     gen_build_args_from_dict (.dict [(.str "k", .int 7)]) =
      .error (.typeError "not all values of the dict are of type str")) :=
  ⟨claim_C8.1 (.str "abc"),
   claim_C8.2.1 [(.int 7, .str "x")] rfl,
   claim_C8.2.2 [(.str "k", .int 7)] rfl rfl⟩

/-- C9: `prefix_dict_keys` returns a new mapping with the prefix
concatenated in front of every key and the values untouched (of any type),
and raises a `TypeError` for a non-textual prefix, a non-mapping input, or
a non-textual key. -/
theorem claim_C9 :
    (∀ (p : String) (d : Entries), allStrKeys d = true → (dictKeys d).Nodup →
      prefix_dict_keys (.str p) (.dict d) =
        .ok (d.map fun kv => (.str (p ++ pyStr kv.1), kv.2))) ∧
    (∀ (v : PyVal) (o : PyObj), v.isStr = false →
      prefix_dict_keys v o = .error (.typeError "prefix is not of type str")) ∧
    (∀ (p : String) (v : PyVal),
      prefix_dict_keys (.str p) (.val v) = .error (.typeError "dct is not of type dict")) ∧
    (∀ (p : String) (d : Entries), allStrKeys d = false →
      prefix_dict_keys (.str p) (.dict d) =
        .error (.typeError "not all keys of the dict are of type str")) := by
  refine ⟨prefix_dict_keys_ok, ?_, ?_, ?_⟩
  · intro v o h
    simp [prefix_dict_keys, h]
  · intro p v
    simp [prefix_dict_keys, PyVal.isStr]
  · intro p d h
    simp [prefix_dict_keys, PyVal.isStr, h]

theorem claim_C9_witness :
    prefix_dict_keys (.str "ABC_") (.dict [(.str "a", .int 1), (.str "b", .int 2)]) =
      .ok [(.str "ABC_a", .int 1), (.str "ABC_b", .int 2)] ∧
    prefix_dict_keys (.int 123) (.dict []) =
      .error (.typeError "prefix is not of type str") ∧
    prefix_dict_keys (.str "pfx") (.val (.int 123)) =
      .error (.typeError "dct is not of type dict") ∧
    prefix_dict_keys (.str "pfx") (.dict [(.str "abc", .int 123), (.int 123, .int 123)]) =
      .error (.typeError "not all keys of the dict are of type str") :=
  ⟨(claim_C9.1 "ABC_" [(.str "a", .int 1), (.str "b", .int 2)] rfl (by decide)).trans (by decide),
   claim_C9.2.1 (.int 123) (.dict []) rfl,
   claim_C9.2.2.1 "pfx" (.int 123),
   claim_C9.2.2.2 "pfx" [(.str "abc", .int 123), (.int 123, .int 123)] rfl⟩

/-- C10: when a (textual-keyed) mapping holds two distinct keys that
collapse under upper-casing, `upper_dict_keys` returns strictly fewer
entries than the input; in the two-entry case the value of the key
iterated last wins. -/
theorem claim_C10 :
    (∀ (d : Entries) (k1 k2 : String) (v1 v2 : PyVal),
      allStrKeys d = true → (.str k1, v1) ∈ d → (.str k2, v2) ∈ d → k1 ≠ k2 →
      pyUpper k1 = pyUpper k2 →
      ∃ e : Entries, upper_dict_keys (.dict d) = .ok e ∧ e.length < d.length) ∧
    (∀ v1 v2 : PyVal,
      upper_dict_keys (.dict [(.str "a", v1), (.str "A", v2)]) = .ok [(.str "A", v2)]) := by
  constructor
  · intro d k1 k2 v1 v2 h1 hm1 hm2 hne hup
    refine ⟨d.foldl (fun acc kv => dictInsert acc (pyValUpper kv.1) kv.2) [], ?_, ?_⟩
    · simp [upper_dict_keys, h1]
    · have hrw :
          d.foldl (fun acc kv => dictInsert acc (pyValUpper kv.1) kv.2) [] =
          (d.map fun kv => (pyValUpper kv.1, kv.2)).foldl
            (fun a kv => dictInsert a kv.1 kv.2) [] := by
        rw [List.foldl_map]
      rw [hrw]
      have hdup : ¬ (((d.map fun kv => (pyValUpper kv.1, kv.2)).map Prod.fst).Nodup) := by
        intro hnd
        rw [List.map_map] at hnd
        have hinj := List.inj_on_of_nodup_map hnd
        have heq : (Prod.fst ∘ fun kv => (pyValUpper kv.1, kv.2)) (PyVal.str k1, v1) =
            (Prod.fst ∘ fun kv => (pyValUpper kv.1, kv.2)) (PyVal.str k2, v2) := by
          simp [Function.comp, pyValUpper, hup]
        have := hinj hm1 hm2 heq
        rw [Prod.mk.injEq, PyVal.str.injEq] at this
        exact hne this.1
      have := foldl_dictInsert_length_lt (d.map fun kv => (pyValUpper kv.1, kv.2)) []
        (Or.inl hdup)
      simpa using this
  · intro v1 v2
    rfl

theorem claim_C10_witness :
    (∃ e : Entries,
      upper_dict_keys (.dict [(.str "a", .int 1), (.str "A", .int 2)]) = .ok e ∧
      e.length < ([(.str "a", .int 1), (.str "A", .int 2)] : Entries).length) ∧
    upper_dict_keys (.dict [(.str "a", .int 1), (.str "A", .int 2)]) =
      .ok [(.str "A", .int 2)] :=
  ⟨claim_C10.1 [(.str "a", .int 1), (.str "A", .int 2)] "a" "A" (.int 1) (.int 2)
      rfl (by decide) (by decide) (by decide) (by decide),
   claim_C10.2 (.int 1) (.int 2)⟩

/-- C3: on the synthetic record with commit identifier
`1234567890abcdef`, the Driver pipeline succeeds; the header text starts
with the line `#pragma once`, contains the line
`#define GIT_COMMIT_HASH "1234567890abcdef"` and a hash-partition define
for every length 8 through 16; and the build-argument string contains the
token `-DGIT_COMMIT_HASH='1234567890abcdef'`. -/
theorem claim_C3 :
    (driver_pipeline c3_record).isOk = true ∧
    (splitLines c3_header).head? = some "#pragma once" ∧
    ("#define GIT_COMMIT_HASH " ++ dqs ++ "1234567890abcdef" ++ dqs) ∈ splitLines c3_header ∧
    (∀ L ∈ List.range' 8 9,
      ("#define " ++ hashKey L ++ " " ++ dqs ++ (⟨"1234567890abcdef".data.take L⟩ : String) ++ dqs)
        ∈ splitLines c3_header) ∧
    ("-DGIT_COMMIT_HASH=" ++ sqs ++ "1234567890abcdef" ++ sqs) ∈ splitSpaces c3_args := by
  decide

/-!  ## Shell-round-trip lemmas (claim C2)  -/

theorem digitChar_ne_squo (n : Nat) : Nat.digitChar n ≠ squo := by
  by_cases h : n < 16
  · interval_cases n <;> decide
  · have hstar : Nat.digitChar n = Char.ofNat 42 := by
      unfold Nat.digitChar
      repeat rw [if_neg (by omega)]
    rw [hstar]
    decide

theorem squo_not_mem_pyReprEscChar {c : Char} (h : c ≠ squo) :
    squo ∉ pyReprEscChar squo c := by
  unfold pyReprEscChar
  split
  · rename_i hc
    rcases hc with hc | hc
    · subst hc
      decide
    · exact absurd hc h
  · split
    · rename_i hc
      subst hc
      decide
    · split
      · rename_i hc
        subst hc
        decide
      · split
        · rename_i hc
          subst hc
          decide
        · split
          · intro hm
            rcases List.mem_cons.mp hm with hm | hm
            · exact absurd hm.symm (by decide)
            rcases List.mem_cons.mp hm with hm | hm
            · exact absurd hm.symm (by decide)
            rcases List.mem_cons.mp hm with hm | hm
            · exact (digitChar_ne_squo _ hm.symm).elim
            rcases List.mem_cons.mp hm with hm | hm
            · exact (digitChar_ne_squo _ hm.symm).elim
            · simp at hm
          · intro hm
            rcases List.mem_cons.mp hm with hm | hm
            · exact h hm.symm
            · simp at hm

theorem foldr_esc_no_squo :
    ∀ l : List Char, (∀ c ∈ l, c ≠ squo) →
      squo ∉ l.foldr (fun c acc => pyReprEscChar squo c ++ acc) [] := by
  intro l
  induction l with
  | nil => intro _; simp
  | cons c rest ih =>
    intro h
    rw [List.foldr_cons]
    intro hm
    rcases List.mem_append.mp hm with hm | hm
    · exact squo_not_mem_pyReprEscChar (h c (by simp)) hm
    · exact ih (fun c' hc' => h c' (by simp [hc'])) hm

theorem escInner_no_squo {w : String} (h : squo ∉ w.data) : squo ∉ escInner w :=
  foldr_esc_no_squo w.data fun c hc => by
    intro heq
    exact h (heq ▸ hc)

theorem foldr_esc_append (q : Char) :
    ∀ (l : List Char) (init : List Char),
      l.foldr (fun c acc => pyReprEscChar q c ++ acc) init =
        l.foldr (fun c acc => pyReprEscChar q c ++ acc) [] ++ init := by
  intro l
  induction l with
  | nil => intro init; simp
  | cons c rest ih =>
    intro init
    rw [List.foldr_cons, List.foldr_cons, ih init, List.append_assoc]

theorem pyReprStr_data {w : String} (h : squo ∉ w.data) :
    (pyReprStr w).data = squo :: (escInner w ++ [squo]) := by
  have hcont : w.data.contains squo = false := by
    simpa using h
  unfold pyReprStr
  simp only [pyReprQuote, hcont, Bool.false_and, if_neg (by simp : ¬ (false = true))]
  rw [escInner, foldr_esc_append]

theorem stripSq_no_squo (s : String) : squo ∉ (stripSq s).data := by
  unfold stripSq
  intro hm
  have := List.of_mem_filter hm
  simp at this

theorem joinSpChars_cons_cons (x y : List Char) (ys : List (List Char)) :
    joinSpChars (x :: y :: ys) = x ++ Char.ofNat 32 :: joinSpChars (y :: ys) := rfl

theorem shlexAux_plain :
    ∀ (p rest tok : List Char) (b : Bool) (acc : List (List Char)),
      (∀ c ∈ p, shPlain c) →
      shlexAux .normal (p ++ rest) tok b acc =
        shlexAux .normal rest (tok ++ p) (b || !p.isEmpty) acc := by
  intro p
  induction p with
  | nil => intro rest tok b acc _; simp
  | cons c p' ih =>
    intro rest tok b acc hp
    have hc : shPlain c := hp c (by simp)
    rw [List.cons_append, shlexAux, if_neg hc.1, if_neg hc.2.2.2, if_neg hc.2.1,
      if_neg hc.2.2.1,
      ih rest (tok ++ [c]) true acc (fun c' hc' => hp c' (List.mem_cons_of_mem _ hc'))]
    simp

theorem shlexAux_squote_lit :
    ∀ (q rest tok : List Char) (acc : List (List Char)),
      (∀ c ∈ q, c ≠ squo) →
      shlexAux .squote (q ++ squo :: rest) tok true acc =
        shlexAux .normal rest (tok ++ q) true acc := by
  intro q
  induction q with
  | nil => intro rest tok acc _; rw [List.nil_append, shlexAux, if_pos rfl, List.append_nil]
  | cons c q' ih =>
    intro rest tok acc hq
    rw [List.cons_append, shlexAux, if_neg (hq c (by simp)),
      ih rest (tok ++ [c]) acc (fun c' hc' => hq c' (List.mem_cons_of_mem _ hc'))]
    simp

theorem joinSpChars_singleton (x : List Char) : joinSpChars [x] = x := rfl

theorem shlex_one_word (p q rest : List Char) (acc : List (List Char))
    (hp0 : p ≠ []) (hp : ∀ c ∈ p, shPlain c) (hq : ∀ c ∈ q, c ≠ squo) :
    shlexAux .normal (p ++ squo :: q ++ squo :: rest) [] false acc =
      shlexAux .normal rest (p ++ q) true acc := by
  rw [show (p ++ squo :: q) ++ squo :: rest = p ++ (squo :: (q ++ squo :: rest)) by simp,
    shlexAux_plain p _ [] false acc hp]
  have hb : (false || !p.isEmpty) = true := by
    cases p with
    | nil => exact absurd rfl hp0
    | cons _ _ => rfl
  rw [hb, List.nil_append, shlexAux, if_neg (by decide : ¬ shWs squo),
    if_neg (by decide : ¬ (squo = bsl)), if_pos rfl, shlexAux_squote_lit q rest p acc hq]

theorem shlex_words :
    ∀ (ws : List (List Char × List Char)) (acc : List (List Char)),
      (∀ w ∈ ws, w.1 ≠ [] ∧ (∀ c ∈ w.1, shPlain c) ∧ (∀ c ∈ w.2, c ≠ squo)) →
      shlexAux .normal (joinSpChars (ws.map fun w => w.1 ++ squo :: w.2 ++ [squo]))
          [] false acc =
        some (acc ++ ws.map fun w => w.1 ++ w.2) := by
  intro ws
  induction ws with
  | nil => intro acc _; simp [joinSpChars, shlexAux]
  | cons w ws' ih =>
    intro acc hws
    obtain ⟨hp0, hp, hq⟩ := hws w (by simp)
    cases ws' with
    | nil =>
      rw [List.map_cons, List.map_nil, joinSpChars_singleton,
        shlex_one_word w.1 w.2 [] acc hp0 hp hq, shlexAux]
      simp
    | cons w2 ws'' =>
      have ihx := ih (acc ++ [w.1 ++ w.2])
        (fun w' hw' => hws w' (List.mem_cons_of_mem _ hw'))
      simp only [List.map_cons] at ihx ⊢
      rw [joinSpChars_cons_cons]
      generalize hJ : joinSpChars ((w2.1 ++ squo :: w2.2 ++ [squo]) ::
        (ws''.map fun w => w.1 ++ squo :: w.2 ++ [squo])) = J
      rw [hJ] at ihx
      rw [show (w.1 ++ squo :: w.2 ++ [squo]) ++ Char.ofNat 32 :: J =
            w.1 ++ squo :: w.2 ++ squo :: (Char.ofNat 32 :: J) by simp,
        shlex_one_word _ _ _ acc hp0 hp hq, shlexAux,
        if_pos (by decide : shWs (Char.ofNat 32)), if_pos rfl, ihx]
      simp

theorem all_map_eq {α β : Type} (l : List α) (f : α → β) (p : β → Bool) :
    (l.map f).all p = l.all fun x => p (f x) := by
  induction l with
  | nil => rfl
  | cons x xs ih => simp [ih]

theorem char_toNat_ofNat_valid {n : Nat} (h : n.isValidChar) :
    (Char.ofNat n).toNat = n := by
  unfold Char.ofNat
  rw [dif_pos h]
  rfl

theorem shPlain_pyCharUpper {c : Char} (h : shPlain c) : shPlain (pyCharUpper c) := by
  unfold pyCharUpper
  split
  · rename_i hc
    have hv : (c.toNat - 32).isValidChar := Or.inl (by omega)
    have ht : (Char.ofNat (c.toNat - 32)).toNat = c.toNat - 32 := char_toNat_ofNat_valid hv
    have hb : 65 ≤ c.toNat - 32 ∧ c.toNat - 32 ≤ 90 := by omega
    have c32 : (Char.ofNat 32).toNat = 32 := by decide
    have c9 : (Char.ofNat 9).toNat = 9 := by decide
    have c10 : (Char.ofNat 10).toNat = 10 := by decide
    have c13 : (Char.ofNat 13).toNat = 13 := by decide
    have c39 : squo.toNat = 39 := by decide
    have c34 : dquo.toNat = 34 := by decide
    have c92 : bsl.toNat = 92 := by decide
    refine ⟨?_, ?_, ?_, ?_⟩
    · intro hws
      have hws' : Char.ofNat (c.toNat - 32) = Char.ofNat 32 ∨
          Char.ofNat (c.toNat - 32) = Char.ofNat 9 ∨
          Char.ofNat (c.toNat - 32) = Char.ofNat 10 ∨
          Char.ofNat (c.toNat - 32) = Char.ofNat 13 := hws
      rcases hws' with h' | h' | h' | h' <;>
        · have h2 := congrArg Char.toNat h'
          rw [ht] at h2
          omega
    · intro h'
      have h2 := congrArg Char.toNat h'
      rw [ht] at h2
      omega
    · intro h'
      have h2 := congrArg Char.toNat h'
      rw [ht] at h2
      omega
    · intro h'
      have h2 := congrArg Char.toNat h'
      rw [ht] at h2
      omega
  · exact h

theorem joinWith_space_data :
    ∀ l : List String, (joinWith " " l).data = joinSpChars (l.map String.data) := by
  intro l
  induction l with
  | nil => rfl
  | cons x xs ih =>
    cases xs with
    | nil => rfl
    | cons y ys =>
      have h1 : joinWith " " (x :: y :: ys) = x ++ " " ++ joinWith " " (y :: ys) := rfl
      rw [h1, String.data_append, String.data_append, ih]
      simp only [List.map_cons]
      rw [joinSpChars_cons_cons]
      have hch : Char.ofNat 32 = ' ' := rfl
      rw [hch]
      simp

theorem token_data_shape (kv : PyVal × PyVal) :
    ("-D" ++ pyUpper (pyStr kv.1) ++ "=" ++
        pyReprStr (stripSq (pyReprStr (strValue kv.2)))).data =
      ("-D" ++ pyUpper (pyStr kv.1) ++ "=").data ++
        squo :: (escInner (stripSq (pyReprStr (strValue kv.2))) ++ [squo]) := by
  rw [String.data_append, pyReprStr_data (stripSq_no_squo _)]

theorem token_word_ok (kv : PyVal × PyVal) (hk : shellSafeKey (pyStr kv.1)) :
    ("-D" ++ pyUpper (pyStr kv.1) ++ "=").data ≠ [] ∧
    (∀ c ∈ ("-D" ++ pyUpper (pyStr kv.1) ++ "=").data, shPlain c) ∧
    (∀ c ∈ escInner (stripSq (pyReprStr (strValue kv.2))), c ≠ squo) := by
  refine ⟨?_, ?_, fun c hc => escInner_no_squo (stripSq_no_squo _) ∘ (· ▸ hc)⟩
  · rw [String.data_append]
    simp
  · intro c hc
    rw [String.data_append, String.data_append] at hc
    rcases List.mem_append.mp hc with hc | hc
    · rcases List.mem_append.mp hc with hc | hc
      · have : c = '-' ∨ c = 'D' := by simpa using hc
        rcases this with rfl | rfl <;> decide
      · have hmap : (pyUpper (pyStr kv.1)).data = (pyStr kv.1).data.map pyCharUpper := rfl
        rw [hmap] at hc
        obtain ⟨c0, hc0, rfl⟩ := List.mem_map.mp hc
        exact shPlain_pyCharUpper (hk c0 hc0)
    · have : c = '=' := by simpa using hc
      subst this
      decide

/-- C2, restated after correction: with keys that are shell-safe (no
whitespace, quote, or backslash characters), escaping with
`repr_dict_values` followed by `gen_build_args_from_dict` yields a string
whose shell-word splitting gives exactly one token per entry, in iteration
order, each token being `-D<KEY>=` followed by the escaped value. -/
theorem claim_C2 (m : Entries)
    (h1 : allStrKeys m = true) (h2 : (dictKeys m).Nodup)
    (h3 : ∀ kv ∈ m, shellSafeKey (pyStr kv.1)) :
    ∃ s : String, escape_then_args m = .ok s ∧
      shlexSplit s = some (m.map shellTokenOf) ∧
      (m.map shellTokenOf).length = m.length := by
  have hrepr := repr_dict_values_ok m h1 h2
  set d1 : Entries := m.map fun kv => (kv.1, PyVal.str (stripSq (pyReprStr (strValue kv.2))))
    with hd1
  have hkeys1 : allStrKeys d1 = true := by
    rw [hd1, allStrKeys, all_map_eq]
    exact h1
  have hvals1 : allStrVals d1 = true := by
    rw [hd1, allStrVals, all_map_eq]
    simp [PyVal.isStr]
  have hargs := gen_build_args_from_dict_ok d1 hkeys1 hvals1
  refine ⟨joinWith " " (d1.map fun kv => "-D" ++ pyUpper (pyStr kv.1) ++ "=" ++ pyRepr kv.2),
    ?_, ?_, by simp⟩
  · rw [escape_then_args, hrepr]
    exact hargs
  · have htoks : (d1.map fun kv => "-D" ++ pyUpper (pyStr kv.1) ++ "=" ++ pyRepr kv.2) =
        m.map fun kv =>
          "-D" ++ pyUpper (pyStr kv.1) ++ "=" ++ pyReprStr (stripSq (pyReprStr (strValue kv.2))) := by
      rw [hd1, List.map_map]
      rfl
    rw [htoks, shlexSplit, joinWith_space_data, List.map_map]
    have hshape : m.map (String.data ∘ fun kv =>
          "-D" ++ pyUpper (pyStr kv.1) ++ "=" ++ pyReprStr (stripSq (pyReprStr (strValue kv.2)))) =
        (m.map fun kv => (("-D" ++ pyUpper (pyStr kv.1) ++ "=").data,
            escInner (stripSq (pyReprStr (strValue kv.2))))).map
          fun w => w.1 ++ squo :: w.2 ++ [squo] := by
      rw [List.map_map]
      refine List.map_eq_map_iff.mpr ?_
      intro kv _
      have := token_data_shape kv
      simp only [Function.comp]
      rw [this]
      simp
    rw [hshape, shlex_words _ [] ?_]
    · simp only [Option.map_some', List.nil_append, List.map_map]
      rfl
    · intro w hw
      obtain ⟨kv, hkv, rfl⟩ := List.mem_map.mp hw
      exact token_word_ok kv (h3 kv hkv)

/-- C2, as stated, is false for arbitrary textual keys: the upper-cased key
is inserted into the token verbatim, so a key containing a space (here
`"a b"`) produces a build-argument string whose shell-word splitting gives
two tokens for the single entry. -/
theorem claim_C2_counterexample :
    escape_then_args [(.str "a b", .str "x")] = .ok ("-DA B=" ++ sqs ++ "x" ++ sqs) ∧
    shlexSplit ("-DA B=" ++ sqs ++ "x" ++ sqs) = some ["-DA", "B=x"] ∧
    ([(.str "a b", .str "x")] : Entries).length = 1 := by
  decide

theorem claim_C2_witness :
    ∃ s : String, escape_then_args [(.str "abc", .str "d e")] = .ok s ∧
      shlexSplit s = some (([(.str "abc", .str "d e")] : Entries).map shellTokenOf) ∧
      (([(.str "abc", .str "d e")] : Entries).map shellTokenOf).length =
        ([(.str "abc", .str "d e")] : Entries).length :=
  claim_C2 [(.str "abc", .str "d e")] rfl (by decide) (by decide)
